import Mathlib

/-!
Verification of the watch-descriptor registry and event loop of
`inotify-example.cpp` (class `Watch` and the dispatch loop in `main`).

The two `std::map` members are embedded as association lists whose
operations mirror `std::map` behaviour exactly, including the
default-insertion performed by `operator[]` on an absent key.  The
recursive path walk `Watch::get(int)` is embedded with explicit fuel,
threading the registry state so that the default-insertions performed
by `operator[]` during the walk are visible; exhausting every fuel
corresponds to non-termination of the C++ recursion.
-/

set_option linter.unusedVariables false

/-- Lookup in an association list: the value stored under the first
occurrence of key `k`, mirroring `std::map::find`. -/
def alookup {α β : Type} [DecidableEq α] (k : α) : List (α × β) → Option β
  | [] => none
  | (k2, v) :: t => if k = k2 then some v else alookup k t

/-- Store `v` under key `k`: replace the first occurrence in place, or
append a fresh pair at the end, mirroring `std::map::operator[]`
assignment (the physical position in the list is irrelevant to every
lookup). -/
def aset {α β : Type} [DecidableEq α] (k : α) (v : β) : List (α × β) → List (α × β)
  | [] => [(k, v)]
  | (k2, v2) :: t => if k = k2 then (k, v) :: t else (k2, v2) :: aset k v t

/-- Remove the first occurrence of key `k`, mirroring
`std::map::erase(key)`. -/
def aerase {α β : Type} [DecidableEq α] (k : α) : List (α × β) → List (α × β)
  | [] => []
  | (k2, v2) :: t => if k = k2 then t else (k2, v2) :: aerase k t

/-- Read access through `std::map::operator[]`: if the key is absent a
value-initialized element is inserted and returned.  Returns the value
read together with the (possibly grown) map. -/
def aindex {α β : Type} [DecidableEq α] (k : α) (d : β) (m : List (α × β)) :
    β × List (α × β) :=
  match alookup k m with
  | some v => (v, m)
  | none => (d, aset k d m)

/-- Keys of the association list are pairwise distinct.  Every map built
from the empty map by `aset`/`aerase` satisfies this, matching the key
uniqueness of `std::map`. -/
def NodupKeys {α β : Type} (m : List (α × β)) : Prop := (m.map Prod.fst).Nodup

/-- Embeds `struct wd_elem { int pd; string name; }`.  The comparator of
the C++ map is lexicographic on `(pd, name)`, so two keys are equivalent
exactly when they are structurally equal, which is what association-list
lookup by `DecidableEq` uses. -/
structure WdElem where
  pd : Int
  name : String
deriving DecidableEq, Repr

/-- Embeds class `Watch`: `map<int, wd_elem> watch` and
`map<wd_elem, int, wd_elem> rwatch`. -/
structure Watch where
  watch : List (Int × WdElem)
  rwatch : List (WdElem × Int)
deriving DecidableEq, Repr

/-- A default-constructed `Watch` object: both maps empty. -/
def Watch.empty : Watch := ⟨[], []⟩

/-- Embeds `Watch::insert(int pd, const string &name, int wd)`:
`watch[wd] = elem; rwatch[elem] = wd;`. -/
def Watch.insert (w : Watch) (pd : Int) (nm : String) (wd : Int) : Watch :=
  { watch := aset wd ⟨pd, nm⟩ w.watch, rwatch := aset ⟨pd, nm⟩ wd w.rwatch }

/-- Embeds `Watch::erase(int pd, const string &name, int *wd)`.
`*wd = rwatch[pelem]` (an `operator[]` read, default-inserting `0` when
the pair is absent), then `rwatch.erase(pelem)`, then the element name is
read through `watch[*wd]` (again `operator[]`) and `watch.erase(*wd)`.
Returns `(dir, *wd, new state)`. -/
def Watch.erase (w : Watch) (pd : Int) (nm : String) : String × Int × Watch :=
  let pelem : WdElem := ⟨pd, nm⟩
  let r1 := aindex pelem 0 w.rwatch
  let wd := r1.1
  let rw2 := aerase pelem r1.2
  let r2 := aindex wd ⟨0, ""⟩ w.watch
  let dir := r2.1.name
  let wm2 := aerase wd r2.2
  (dir, wd, ⟨wm2, rw2⟩)

/-- Embeds the recursive `Watch::get(int wd)`:
`elem.pd == -1 ? elem.name : get(elem.pd) + "/" + elem.name`, where
`elem` is read through `watch[wd]` (`operator[]`, default-inserting
`{0, ""}` on an absent key).  The C++ recursion has no fuel; here
`(none, _)` with the fuel exhausted at every depth corresponds to a
non-terminating C++ call.  The state is threaded to expose the
default-insertions. -/
def Watch.get : Nat → Watch → Int → Option String × Watch
  | 0, w, _ => (none, w)
  | n + 1, w, wd =>
    let p := aindex wd ⟨0, ""⟩ w.watch
    let w1 : Watch := { w with watch := p.2 }
    if p.1.pd = -1 then (some p.1.name, w1)
    else
      let q := Watch.get n w1 p.1.pd
      (q.1.map (fun s => s ++ "/" ++ p.1.name), q.2)

/-- Embeds the overloaded `Watch::get(int pd, string name)`:
`return rwatch[elem];` — an `operator[]` read that default-inserts `0`
when the pair is absent. -/
def Watch.getWd (w : Watch) (pd : Int) (nm : String) : Int × Watch :=
  let r := aindex (⟨pd, nm⟩ : WdElem) 0 w.rwatch
  (r.1, { w with rwatch := r.2 })

/-- Embeds `Watch::cleanup(int fd)`: the loop walks the forward map,
calls `inotify_rm_watch` (external) on every key and erases every
element, then `rwatch.clear()`.  The C++ loop increments an iterator
after erasing it, which is formally undefined behaviour; the evident
intent, modelled here, is a full traversal that empties the forward map.
Returns the handles passed to `inotify_rm_watch` and the new state. -/
def Watch.cleanup (w : Watch) : List Int × Watch :=
  (w.watch.map Prod.fst, ⟨[], []⟩)

/-- Embeds `Watch::stats()`: `(watch.size(), rwatch.size())`. -/
def Watch.stats (w : Watch) : Nat × Nat := (w.watch.length, w.rwatch.length)

/-- The element read by `watch[wd]` without the insertion side effect:
the stored element, or the value-initialized `{0, ""}` when absent. -/
def elemD (w : Watch) (wd : Int) : WdElem := (alookup wd w.watch).getD ⟨0, ""⟩

/-- One step of the parent chain walked by `Watch::get(int)`: the parent
descriptor of the element `watch[wd]` reads (an absent key steps to the
value-initialized parent `0`). -/
def chainStep (w : Watch) (wd : Int) : Int := (elemD w wd).pd

/-- Iterated parent-chain steps. -/
def chainIter (w : Watch) : Nat → Int → Int
  | 0, wd => wd
  | k + 1, wd => chainIter w k (chainStep w wd)

/-- Pure reference reading of the path walk: joins the names along the
chain of live entries, `none` when the walk leaves the live entries or
exceeds the fuel.  Used to state when `Watch::get` is mutation-free. -/
def purePath : Nat → Watch → Int → Option String
  | 0, _, _ => none
  | n + 1, w, wd =>
    match alookup wd w.watch with
    | none => none
    | some e =>
      if e.pd = -1 then some e.name
      else (purePath n w e.pd).map (fun s => s ++ "/" ++ e.name)

/-- A registry mutation of the `Watch` class, for stating the invariant
over operation sequences: `ins` is `Watch::insert`, `rem` is
`Watch::erase` (return values discarded). -/
inductive WOp where
  | ins (pd : Int) (nm : String) (wd : Int)
  | rem (pd : Int) (nm : String)
deriving DecidableEq

/-- Apply one registry operation. -/
def applyOp (w : Watch) : WOp → Watch
  | .ins pd nm wd => w.insert pd nm wd
  | .rem pd nm => (w.erase pd nm).2.2

/-- Apply a sequence of registry operations in order. -/
def runOps (w : Watch) : List WOp → Watch
  | [] => w
  | op :: t => runOps (applyOp w op) t

/-- Precondition under which an operation keeps the two maps in sync:
an insert uses a handle and a `(parent, name)` pair that are both not
live; an erase targets a live pair, or happens while no live entry has
handle `0` (the value `operator[]` default-inserts for an absent pair). -/
def okOp (w : Watch) : WOp → Prop
  | .ins pd nm wd =>
      alookup wd w.watch = none ∧ alookup (⟨pd, nm⟩ : WdElem) w.rwatch = none
  | .rem pd nm =>
      (alookup (⟨pd, nm⟩ : WdElem) w.rwatch).isSome = true ∨
        alookup (0 : Int) w.watch = none

/-- Every operation of the sequence satisfies `okOp` in the state it is
applied to. -/
def AllOk (w : Watch) : List WOp → Prop
  | [] => True
  | op :: t => okOp w op ∧ AllOk (applyOp w op) t

instance instDecOkOp (w : Watch) (op : WOp) : Decidable (okOp w op) :=
  match op with
  | .ins pd nm wd => inferInstanceAs (Decidable (_ ∧ _))
  | .rem pd nm => inferInstanceAs (Decidable (_ ∨ _))

instance instDecAllOk : (w : Watch) → (l : List WOp) → Decidable (AllOk w l)
  | _, [] => isTrue trivial
  | w, op :: t =>
    haveI : Decidable (AllOk (applyOp w op) t) := instDecAllOk (applyOp w op) t
    inferInstanceAs (Decidable (okOp w op ∧ AllOk (applyOp w op) t))

/-- The two maps are exact inverses with duplicate-free keys — the
registry invariant maintained by precondition-respecting operation
sequences. -/
def InvW (w : Watch) : Prop :=
  NodupKeys w.watch ∧ NodupKeys w.rwatch ∧
    ∀ wd e, alookup wd w.watch = some e ↔ alookup e w.rwatch = some wd

/-- A decoded `inotify_event`: `wd`, the mask bits the dispatch loop
tests (`IN_CREATE`, `IN_DELETE`, `IN_ISDIR`, `IN_IGNORED`,
`IN_Q_OVERFLOW`), `len` and `name`. -/
structure InEvent where
  wd : Int
  isCreate : Bool
  isDelete : Bool
  isDir : Bool
  isIgnored : Bool
  isOverflow : Bool
  len : Nat
  name : String
deriving DecidableEq, Repr

/-- State carried by `main` across events: the `Watch` object, the next
handle the kernel will issue for `inotify_add_watch` (the kernel is
external; fresh-handle issuance is modelled by a counter), and the two
event counters. -/
structure LoopState where
  watch : Watch
  nextWd : Int
  totalFileEvents : Int
  totalDirEvents : Int
deriving DecidableEq, Repr

/-- Embeds the body of the per-event dispatch in `main`.  The two
overflow checks (`event->wd == -1`, `IN_Q_OVERFLOW`) and the
`IN_IGNORED` check only print.  Under `event->len`: on `IN_CREATE` the
parent path is resolved with `Watch::get` (state threaded; `none` means
the C++ recursion does not terminate), then a directory is registered
and inserted and the directory counter incremented, while a file only
increments the file counter; on `IN_DELETE` a directory is erased from
the registry and the directory counter decremented, while a file
resolves the parent path and decrements the file counter.  `fuel` bounds
the path-walk recursion depth. -/
def processEvent (fuel : Nat) (s : LoopState) (e : InEvent) : Option LoopState :=
  if e.len ≠ 0 then
    if e.isCreate then
      match Watch.get fuel s.watch e.wd with
      | (none, _) => none
      | (some _, w1) =>
        if e.isDir then
          some { watch := Watch.insert w1 e.wd e.name s.nextWd,
                 nextWd := s.nextWd + 1,
                 totalFileEvents := s.totalFileEvents,
                 totalDirEvents := s.totalDirEvents + 1 }
        else
          some { s with watch := w1, totalFileEvents := s.totalFileEvents + 1 }
    else if e.isDelete then
      if e.isDir then
        some { s with
               watch := (Watch.erase s.watch e.wd e.name).2.2,
               totalDirEvents := s.totalDirEvents - 1 }
      else
        match Watch.get fuel s.watch e.wd with
        | (none, _) => none
        | (some _, w1) =>
          some { s with watch := w1, totalFileEvents := s.totalFileEvents - 1 }
    else some s
  else some s

/-- Process a batch of decoded events in order, as the inner `for` loop
of `main` does.  `none` propagates a non-terminating path walk. -/
def runEvents (fuel : Nat) (s : LoopState) : List InEvent → Option LoopState
  | [] => some s
  | e :: t =>
    match processEvent fuel s e with
    | none => none
    | some s2 => runEvents fuel s2 t

/-- Startup state of `main`: the root `"./tmp"` is registered and
inserted as `insert(-1, root, wd)`; counters start at zero.  The root
receives handle `1` and the kernel will issue `2` next. -/
def initState : LoopState :=
  { watch := Watch.insert Watch.empty (-1) "./tmp" 1,
    nextWd := 2, totalFileEvents := 0, totalDirEvents := 0 }

/-- Scenario events for the cascade-loss test: create directory `x`
under the root, create file `f.txt` under `x`, delete directory `x`. -/
def scenarioEvents : List InEvent :=
  [⟨1, true, false, true, false, false, 2, "x"⟩,
   ⟨2, true, false, false, false, false, 6, "f.txt"⟩,
   ⟨1, false, true, true, false, false, 2, "x"⟩]

/-- A queue-overflow event as the kernel delivers it: `wd = -1`,
`IN_Q_OVERFLOW` set, no name payload. -/
def overflowEvent : InEvent := ⟨-1, false, false, false, false, true, 0, ""⟩

/-- Registry holding root `"/tmp/root"`, child `a` and grandchild `b`,
as in the path-reconstruction test. -/
def w3deep : Watch :=
  Watch.insert (Watch.insert (Watch.insert Watch.empty (-1) "/tmp/root" 1) 1 "a" 2) 2 "b" 3

/-- Registry holding root `"./tmp"` (handle 1) and child `a`
(handle 2). -/
def w2deep : Watch :=
  Watch.insert (Watch.insert Watch.empty (-1) "./tmp" 1) 1 "a" 2

/-- Registry in which handle `0` is live but not a root entry (its
parent is the root entry at handle `1`). -/
def c9w : Watch := Watch.insert (Watch.insert Watch.empty (-1) "r" 1) 1 "a" 0

/-! ### Association-list lemmas -/

theorem alookup_aset_self {α β : Type} [DecidableEq α] (k : α) (v : β)
    (m : List (α × β)) : alookup k (aset k v m) = some v := by
  induction m with
  | nil => simp [aset, alookup]
  | cons p t ih =>
    obtain ⟨k2, v2⟩ := p
    by_cases h : k = k2 <;> simp [aset, alookup, h, ih]

theorem alookup_aset_ne {α β : Type} [DecidableEq α] {k k2 : α} (v : β)
    (m : List (α × β)) (h : k ≠ k2) : alookup k (aset k2 v m) = alookup k m := by
  induction m with
  | nil => simp [aset, alookup, h]
  | cons p t ih =>
    obtain ⟨k3, v3⟩ := p
    by_cases h2 : k2 = k3
    · subst h2; simp [aset, alookup, h]
    · by_cases h3 : k = k3 <;> simp [aset, alookup, h2, h3, ih]

theorem length_aset_of_none {α β : Type} [DecidableEq α] {k : α} (v : β)
    {m : List (α × β)} (h : alookup k m = none) :
    (aset k v m).length = m.length + 1 := by
  induction m with
  | nil => simp [aset]
  | cons p t ih =>
    obtain ⟨k2, v2⟩ := p
    by_cases h2 : k = k2
    · simp [alookup, h2] at h
    · simp [alookup, h2] at h
      simp [aset, h2, ih h]

theorem length_aset_of_some {α β : Type} [DecidableEq α] {k : α} (v : β)
    {m : List (α × β)} {v2 : β} (h : alookup k m = some v2) :
    (aset k v m).length = m.length := by
  induction m with
  | nil => simp [alookup] at h
  | cons p t ih =>
    obtain ⟨k3, v3⟩ := p
    by_cases h2 : k = k3
    · simp [aset, h2]
    · simp [alookup, h2] at h
      simp [aset, h2, ih h]

theorem aerase_of_none {α β : Type} [DecidableEq α] {k : α}
    {m : List (α × β)} (h : alookup k m = none) : aerase k m = m := by
  induction m with
  | nil => simp [aerase]
  | cons p t ih =>
    obtain ⟨k2, v2⟩ := p
    by_cases h2 : k = k2
    · simp [alookup, h2] at h
    · simp [alookup, h2] at h
      simp [aerase, h2, ih h]

theorem aerase_aset_of_none {α β : Type} [DecidableEq α] {k : α} (v : β)
    {m : List (α × β)} (h : alookup k m = none) : aerase k (aset k v m) = m := by
  induction m with
  | nil => simp [aset, aerase]
  | cons p t ih =>
    obtain ⟨k2, v2⟩ := p
    by_cases h2 : k = k2
    · simp [alookup, h2] at h
    · simp [alookup, h2] at h
      simp [aset, aerase, h2, ih h]

theorem length_aerase_of_some {α β : Type} [DecidableEq α] {k : α}
    {m : List (α × β)} {v : β} (h : alookup k m = some v) :
    m.length = (aerase k m).length + 1 := by
  induction m with
  | nil => simp [alookup] at h
  | cons p t ih =>
    obtain ⟨k2, v2⟩ := p
    by_cases h2 : k = k2
    · simp [aerase, h2]
    · simp [alookup, h2] at h
      simp [aerase, h2, ih h]

theorem aerase_sublist {α β : Type} [DecidableEq α] (k : α)
    (m : List (α × β)) : (aerase k m).Sublist m := by
  induction m with
  | nil => simp [aerase]
  | cons p t ih =>
    obtain ⟨k2, v2⟩ := p
    by_cases h2 : k = k2
    · simp only [aerase, if_pos h2]
      exact List.sublist_cons_self (k2, v2) t
    · simp only [aerase, if_neg h2]
      exact List.Sublist.cons₂ (k2, v2) ih

theorem alookup_aerase_ne {α β : Type} [DecidableEq α] {k k2 : α}
    (m : List (α × β)) (h : k ≠ k2) : alookup k (aerase k2 m) = alookup k m := by
  induction m with
  | nil => simp [aerase]
  | cons p t ih =>
    obtain ⟨k3, v3⟩ := p
    by_cases h2 : k2 = k3
    · subst h2; simp [aerase, alookup, h]
    · by_cases h3 : k = k3 <;> simp [aerase, alookup, h2, h3, ih]

theorem alookup_none_of_not_mem_keys {α β : Type} [DecidableEq α] {k : α}
    {m : List (α × β)} (h : k ∉ m.map Prod.fst) : alookup k m = none := by
  induction m with
  | nil => simp [alookup]
  | cons p t ih =>
    obtain ⟨k2, v2⟩ := p
    simp only [List.map_cons, List.mem_cons] at h
    push_neg at h
    simp [alookup, h.1, ih h.2]

theorem alookup_aerase_self {α β : Type} [DecidableEq α] (k : α)
    {m : List (α × β)} (hn : NodupKeys m) : alookup k (aerase k m) = none := by
  induction m with
  | nil => simp [aerase, alookup]
  | cons p t ih =>
    obtain ⟨k2, v2⟩ := p
    simp only [NodupKeys, List.map_cons, List.nodup_cons] at hn
    by_cases h2 : k = k2
    · subst h2
      simp only [aerase, if_pos rfl]
      exact alookup_none_of_not_mem_keys hn.1
    · simp [aerase, alookup, h2, ih hn.2]

theorem not_mem_keys_of_alookup_none {α β : Type} [DecidableEq α] {k : α}
    {m : List (α × β)} (h : alookup k m = none) : k ∉ m.map Prod.fst := by
  induction m with
  | nil => simp
  | cons p t ih =>
    obtain ⟨k2, v2⟩ := p
    by_cases h2 : k = k2
    · simp [alookup, h2] at h
    · simp [alookup, h2] at h
      simp [h2, ih h]

theorem keys_aset_of_some {α β : Type} [DecidableEq α] {k : α} (v : β)
    {m : List (α × β)} {v2 : β} (h : alookup k m = some v2) :
    (aset k v m).map Prod.fst = m.map Prod.fst := by
  induction m with
  | nil => simp [alookup] at h
  | cons p t ih =>
    obtain ⟨k3, v3⟩ := p
    by_cases h2 : k = k3
    · simp [aset, h2]
    · simp [alookup, h2] at h
      simp [aset, h2, ih h]

theorem keys_aset_of_none {α β : Type} [DecidableEq α] {k : α} (v : β)
    {m : List (α × β)} (h : alookup k m = none) :
    (aset k v m).map Prod.fst = m.map Prod.fst ++ [k] := by
  induction m with
  | nil => simp [aset]
  | cons p t ih =>
    obtain ⟨k2, v2⟩ := p
    by_cases h2 : k = k2
    · simp [alookup, h2] at h
    · simp [alookup, h2] at h
      simp [aset, h2, ih h]

theorem nodupKeys_aset {α β : Type} [DecidableEq α] (k : α) (v : β)
    {m : List (α × β)} (hn : NodupKeys m) : NodupKeys (aset k v m) := by
  unfold NodupKeys at hn ⊢
  cases h : alookup k m with
  | some v2 => rw [keys_aset_of_some v h]; exact hn
  | none =>
    rw [keys_aset_of_none v h]
    have hk := not_mem_keys_of_alookup_none h
    rw [List.nodup_append]
    refine ⟨hn, List.nodup_singleton k, ?_⟩
    intro a ha hak
    rw [List.mem_singleton] at hak
    subst hak
    exact hk ha

theorem nodupKeys_aerase {α β : Type} [DecidableEq α] (k : α)
    {m : List (α × β)} (hn : NodupKeys m) : NodupKeys (aerase k m) :=
  List.Nodup.sublist (List.Sublist.map Prod.fst (aerase_sublist k m)) hn

/-! ### Characterizations of the `Watch` operations -/

theorem aindex_of_some {α β : Type} [DecidableEq α] {k : α} (d : β)
    {m : List (α × β)} {v : β} (h : alookup k m = some v) :
    aindex k d m = (v, m) := by
  simp [aindex, h]

theorem aindex_of_none {α β : Type} [DecidableEq α] {k : α} (d : β)
    {m : List (α × β)} (h : alookup k m = none) :
    aindex k d m = (d, aset k d m) := by
  simp [aindex, h]

theorem aindex_fst {α β : Type} [DecidableEq α] (k : α) (d : β)
    (m : List (α × β)) : (aindex k d m).1 = (alookup k m).getD d := by
  cases h : alookup k m with
  | some v => rw [aindex_of_some d h]; rfl
  | none => rw [aindex_of_none d h]; rfl

/-- Record eta for `Watch`: rebuilding from the two projections gives the
same object. -/
theorem Watch.eta (w : Watch) : (⟨w.watch, w.rwatch⟩ : Watch) = w := rfl

/-- `Watch::erase` on a live `(parent, name)` pair: removes the pair from
the reverse map and the handle it stored from the forward map, returns
that handle and the bare stored name of the forward element. -/
theorem erase_of_live {w : Watch} {pd : Int} {nm : String} {h0 : Int}
    (hr : alookup (⟨pd, nm⟩ : WdElem) w.rwatch = some h0)
    {e : WdElem} (hw : alookup h0 w.watch = some e) :
    Watch.erase w pd nm =
      (e.name, h0, ⟨aerase h0 w.watch, aerase (⟨pd, nm⟩ : WdElem) w.rwatch⟩) := by
  simp [Watch.erase, aindex_of_some _ hr, aindex_of_some _ hw]

/-- `Watch::erase` on a dead `(parent, name)` pair while no live entry
has handle `0`: the default-inserted reverse entry and the
default-inserted forward entry for handle `0` are both erased again, so
the registry is returned unchanged; the result is handle `0` and the
empty display name. -/
theorem erase_of_dead {w : Watch} {pd : Int} {nm : String}
    (hr : alookup (⟨pd, nm⟩ : WdElem) w.rwatch = none)
    (h0 : alookup (0 : Int) w.watch = none) :
    Watch.erase w pd nm = ("", 0, w) := by
  simp [Watch.erase, aindex_of_none _ hr, aerase_aset_of_none _ hr,
    aindex_of_none _ h0, aerase_aset_of_none _ h0]

/-- The registry invariant holds for the default-constructed object. -/
theorem invW_empty : InvW Watch.empty := by
  refine ⟨by simp [NodupKeys, Watch.empty], by simp [NodupKeys, Watch.empty], ?_⟩
  intro wd e
  simp [Watch.empty, alookup]

/-- `Watch::insert` with a handle and a pair that are both not live
preserves the registry invariant. -/
theorem invW_insert {w : Watch} {pd : Int} {nm : String} {wd : Int}
    (hI : InvW w) (h1 : alookup wd w.watch = none)
    (h2 : alookup (⟨pd, nm⟩ : WdElem) w.rwatch = none) :
    InvW (w.insert pd nm wd) := by
  obtain ⟨hnw, hnr, hiff⟩ := hI
  refine ⟨nodupKeys_aset _ _ hnw, nodupKeys_aset _ _ hnr, ?_⟩
  intro wd2 e2
  by_cases hwd : wd2 = wd
  · subst hwd
    by_cases he : e2 = ⟨pd, nm⟩
    · subst he
      simp [Watch.insert, alookup_aset_self]
    · simp only [Watch.insert, alookup_aset_self, alookup_aset_ne _ _ he]
      constructor
      · intro hsome
        exact absurd (Option.some.inj hsome).symm he
      · intro hsome
        exact absurd (h1 ▸ (hiff wd2 e2).mpr hsome) (by simp)
  · by_cases he : e2 = ⟨pd, nm⟩
    · subst he
      simp only [Watch.insert, alookup_aset_ne _ _ hwd, alookup_aset_self]
      constructor
      · intro hsome
        exact absurd (h2 ▸ (hiff wd2 _).mp hsome) (by simp)
      · intro hsome
        exact absurd (Option.some.inj hsome).symm hwd
    · simp only [Watch.insert, alookup_aset_ne _ _ hwd, alookup_aset_ne _ _ he]
      exact hiff wd2 e2

/-- `Watch::erase` of a live pair preserves the registry invariant. -/
theorem invW_erase_live {w : Watch} {pd : Int} {nm : String} {h0 : Int}
    (hI : InvW w) (hr : alookup (⟨pd, nm⟩ : WdElem) w.rwatch = some h0) :
    InvW ((w.erase pd nm).2.2) := by
  obtain ⟨hnw, hnr, hiff⟩ := hI
  have hw : alookup h0 w.watch = some ⟨pd, nm⟩ := (hiff h0 _).mpr hr
  rw [erase_of_live hr hw]
  refine ⟨nodupKeys_aerase _ hnw, nodupKeys_aerase _ hnr, ?_⟩
  intro wd2 e2
  by_cases hwd : wd2 = h0
  · subst hwd
    simp only [alookup_aerase_self _ hnw]
    constructor
    · intro hsome; exact absurd hsome (by simp)
    · intro hsome
      by_cases he : e2 = ⟨pd, nm⟩
      · subst he
        exact absurd (alookup_aerase_self _ hnr ▸ hsome) (by simp)
      · rw [alookup_aerase_ne _ he] at hsome
        have := (hiff wd2 e2).mpr hsome
        rw [hw] at this
        exact absurd (Option.some.inj this).symm he
  · rw [alookup_aerase_ne _ hwd]
    by_cases he : e2 = ⟨pd, nm⟩
    · subst he
      simp only [alookup_aerase_self _ hnr]
      constructor
      · intro hsome
        have := (hiff wd2 _).mp hsome
        rw [hr] at this
        exact absurd (Option.some.inj this).symm hwd
      · intro hsome; exact absurd hsome (by simp)
    · rw [alookup_aerase_ne _ he]
      exact hiff wd2 e2

/-! ### The count invariant along precondition-respecting sequences -/

/-- One precondition-respecting operation preserves the registry
invariant and the equality of the two map sizes. -/
theorem step_preserves {w : Watch} {op : WOp} (hI : InvW w)
    (hs : w.watch.length = w.rwatch.length) (hok : okOp w op) :
    InvW (applyOp w op) ∧ (applyOp w op).watch.length = (applyOp w op).rwatch.length := by
  cases op with
  | ins pd nm wd =>
    obtain ⟨h1, h2⟩ := hok
    refine ⟨invW_insert hI h1 h2, ?_⟩
    simp only [applyOp, Watch.insert]
    rw [length_aset_of_none _ h1, length_aset_of_none _ h2, hs]
  | rem pd nm =>
    cases hr : alookup (⟨pd, nm⟩ : WdElem) w.rwatch with
    | some h0 =>
      have hw : alookup h0 w.watch = some ⟨pd, nm⟩ := (hI.2.2 h0 _).mpr hr
      refine ⟨invW_erase_live hI hr, ?_⟩
      simp only [applyOp, erase_of_live hr hw]
      have e1 := length_aerase_of_some hw
      have e2 := length_aerase_of_some hr
      omega
    | none =>
      have h0 : alookup (0 : Int) w.watch = none := by
        rcases hok with hok | hok
        · rw [hr] at hok; simp at hok
        · exact hok
      simp only [applyOp, erase_of_dead hr h0]
      exact ⟨hI, hs⟩

/-- `AllOk` restricts to every prefix of the sequence. -/
theorem allOk_append_left {l1 l2 : List WOp} :
    ∀ w : Watch, AllOk w (l1 ++ l2) → AllOk w l1 := by
  induction l1 with
  | nil => intro w h; trivial
  | cons op t ih =>
    intro w h
    exact ⟨h.1, ih _ h.2⟩

/-- Running a precondition-respecting sequence preserves the registry
invariant and the equality of the two map sizes. -/
theorem runOps_preserves {l : List WOp} :
    ∀ w : Watch, InvW w → w.watch.length = w.rwatch.length → AllOk w l →
      InvW (runOps w l) ∧ (runOps w l).watch.length = (runOps w l).rwatch.length := by
  induction l with
  | nil => intro w hI hs h; exact ⟨hI, hs⟩
  | cons op t ih =>
    intro w hI hs h
    obtain ⟨hI2, hs2⟩ := step_preserves hI hs h.1
    exact ih _ hI2 hs2 h.2

/-! ### The path walk `Watch::get(int)` -/

/-- When the pure reading of the walk resolves, `Watch::get` returns the
same joined path and leaves the registry untouched (every `operator[]`
read hits a live key). -/
theorem get_of_purePath :
    ∀ (n : Nat) (w : Watch) (wd : Int) (p : String),
      purePath n w wd = some p → Watch.get n w wd = (some p, w) := by
  intro n
  induction n with
  | zero => intro w wd p h; simp [purePath] at h
  | succ n ih =>
    intro w wd p h
    cases he : alookup wd w.watch with
    | none => simp [purePath, he] at h
    | some e =>
      simp only [purePath, he] at h
      by_cases hpd : e.pd = -1
      · rw [if_pos hpd] at h
        simp only [Watch.get, aindex_of_some _ he, if_pos hpd]
        exact congrArg₂ Prod.mk (congrArg some (Option.some.inj h)) rfl
      · rw [if_neg hpd] at h
        obtain ⟨s, hs, hp⟩ := Option.map_eq_some'.mp h
        simp only [Watch.get, aindex_of_some _ he, if_neg hpd, ih w e.pd s hs]
        rw [← hp]
        exact congrArg₂ Prod.mk rfl (Watch.eta w)

/-- The value `watch[v]` would read is unchanged by the default-insertion
that `watch[wd]` performs: an absent key is inserted with exactly the
value-initialized element that `elemD` already reports for it. -/
theorem elemD_aindex (w : Watch) (wd v : Int) :
    elemD ⟨(aindex wd ⟨0, ""⟩ w.watch).2, w.rwatch⟩ v = elemD w v := by
  cases h : alookup wd w.watch with
  | some e => rw [aindex_of_some _ h]
  | none =>
    rw [aindex_of_none _ h]
    by_cases hv : v = wd
    · subst hv
      simp [elemD, alookup_aset_self, h]
    · simp [elemD, alookup_aset_ne _ _ hv]

/-- The walk only ever default-inserts elements that `elemD` already
reports, so the `elemD` view of the registry is invariant under
`Watch::get`. -/
theorem elemD_get_state :
    ∀ (n : Nat) (w : Watch) (wd v : Int),
      elemD ((Watch.get n w wd).2) v = elemD w v := by
  intro n
  induction n with
  | zero => intro w wd v; rfl
  | succ n ih =>
    intro w wd v
    simp only [Watch.get]
    by_cases hpd : (aindex wd ⟨0, ""⟩ w.watch).1.pd = -1
    · rw [if_pos hpd]
      exact elemD_aindex w wd v
    · rw [if_neg hpd]
      rw [ih ⟨(aindex wd ⟨0, ""⟩ w.watch).2, w.rwatch⟩ _ v]
      exact elemD_aindex w wd v

/-- The result of the walk depends only on the `elemD` view of the
registry. -/
theorem get_fst_congr :
    ∀ (n : Nat) (w w2 : Watch) (wd : Int),
      (∀ v, elemD w v = elemD w2 v) →
      (Watch.get n w wd).1 = (Watch.get n w2 wd).1 := by
  intro n
  induction n with
  | zero => intro w w2 wd h; rfl
  | succ n ih =>
    intro w w2 wd h
    have hfst : (aindex wd ⟨0, ""⟩ w.watch).1 = (aindex wd ⟨0, ""⟩ w2.watch).1 := by
      rw [aindex_fst, aindex_fst]
      exact h wd
    have hnext : ∀ v, elemD ⟨(aindex wd ⟨0, ""⟩ w.watch).2, w.rwatch⟩ v =
        elemD ⟨(aindex wd ⟨0, ""⟩ w2.watch).2, w2.rwatch⟩ v := by
      intro v
      rw [elemD_aindex, elemD_aindex]
      exact h v
    simp only [Watch.get]
    rw [hfst]
    by_cases hpd : (aindex wd ⟨0, ""⟩ w2.watch).1.pd = -1
    · rw [if_pos hpd, if_pos hpd]
    · rw [if_neg hpd, if_neg hpd]
      simp only
      rw [ih _ _ _ hnext]

/-- The first element the walk reads is `elemD w wd`. -/
theorem get_succ_root {n : Nat} {w : Watch} {wd : Int}
    (h : (elemD w wd).pd = -1) :
    (Watch.get (n + 1) w wd).1 = some (elemD w wd).name := by
  simp only [Watch.get, aindex_fst]
  rw [show ((alookup wd w.watch).getD ⟨0, ""⟩) = elemD w wd from rfl, if_pos h]

/-- Non-root first step of the walk: the result is the recursive result
on the parent, joined with the element name. -/
theorem get_succ_rec {n : Nat} {w : Watch} {wd : Int}
    (h : ¬(elemD w wd).pd = -1) :
    (Watch.get (n + 1) w wd).1 =
      (Watch.get n ⟨(aindex wd ⟨0, ""⟩ w.watch).2, w.rwatch⟩ (elemD w wd).pd).1.map
        (fun s => s ++ "/" ++ (elemD w wd).name) := by
  have he : (aindex wd ⟨0, ""⟩ w.watch).1 = elemD w wd := by
    rw [aindex_fst]; rfl
  simp only [Watch.get, he]
  rw [if_neg h]

/-- If the parent chain reaches a root marker in `k` steps, the walk
terminates within fuel `k + 1`. -/
theorem get_isSome_of_chain :
    ∀ (k : Nat) (w : Watch) (wd : Int),
      chainStep w (chainIter w k wd) = -1 →
      ((Watch.get (k + 1) w wd).1).isSome = true := by
  intro k
  induction k with
  | zero =>
    intro w wd h
    have h2 : (elemD w wd).pd = -1 := h
    rw [get_succ_root h2]
    rfl
  | succ k ih =>
    intro w wd h
    by_cases hroot : (elemD w wd).pd = -1
    · rw [get_succ_root hroot]; rfl
    · rw [get_succ_rec hroot]
      have h2 : chainStep w (chainIter w k (chainStep w wd)) = -1 := h
      have h3 := ih w (chainStep w wd) h2
      have h4 : (Watch.get (k + 1) ⟨(aindex wd ⟨0, ""⟩ w.watch).2, w.rwatch⟩
          (elemD w wd).pd).1 = (Watch.get (k + 1) w (elemD w wd).pd).1 :=
        get_fst_congr _ _ _ _ (fun v => elemD_aindex w wd v)
      rw [h4]
      cases h5 : (Watch.get (k + 1) w (chainStep w wd)).1 with
      | none => rw [h5] at h3; simp at h3
      | some s => rw [show (elemD w wd).pd = chainStep w wd from rfl, h5]; rfl

/-- If the walk terminates with some fuel, the parent chain reaches a
root marker. -/
theorem chain_of_get_isSome :
    ∀ (n : Nat) (w : Watch) (wd : Int),
      ((Watch.get n w wd).1).isSome = true →
      ∃ k, chainStep w (chainIter w k wd) = -1 := by
  intro n
  induction n with
  | zero => intro w wd h; simp [Watch.get] at h
  | succ n ih =>
    intro w wd h
    by_cases hroot : (elemD w wd).pd = -1
    · exact ⟨0, hroot⟩
    · rw [get_succ_rec hroot] at h
      cases hx : (Watch.get n ⟨(aindex wd ⟨0, ""⟩ w.watch).2, w.rwatch⟩
          (elemD w wd).pd).1 with
      | none => rw [hx] at h; simp at h
      | some s =>
        have h2 : (Watch.get n w (elemD w wd).pd).1.isSome = true := by
          rw [← get_fst_congr n ⟨(aindex wd ⟨0, ""⟩ w.watch).2, w.rwatch⟩ w _
            (fun v => elemD_aindex w wd v), hx]
          rfl
        obtain ⟨k, hk⟩ := ih w (elemD w wd).pd h2
        exact ⟨k + 1, hk⟩

/-- With no live entry at handle `0`, every chain iterate from `0` stays
at `0`. -/
theorem chainIter_zero {w : Watch} (h0 : alookup (0 : Int) w.watch = none) :
    ∀ k, chainIter w k 0 = 0 := by
  intro k
  induction k with
  | zero => rfl
  | succ k ih =>
    show chainIter w k (chainStep w 0) = 0
    rw [show chainStep w 0 = 0 by simp [chainStep, elemD, h0]]
    exact ih

/-! ### Claims -/

/-- C1 (counterexample): without any restriction on the arguments the
count invariant fails — inserting twice with the same handle `1` but two
different names leaves one forward entry against two reverse entries. -/
theorem C1_counterexample :
    (Watch.stats (runOps Watch.empty [WOp.ins (-1) "a" 1, WOp.ins (-1) "b" 1])).1 ≠
      (Watch.stats (runOps Watch.empty [WOp.ins (-1) "a" 1, WOp.ins (-1) "b" 1])).2 := by
  decide

/-- C1 (amended): for every sequence of `insert`/`erase` operations in
which each insert uses a handle and a `(parent, name)` pair that are not
live, and each erase targets a live pair or happens while no live entry
has handle `0`, the forward and reverse counts of `stats` are equal
after every prefix of the sequence. -/
theorem C1_amended (ops1 ops2 : List WOp)
    (h : AllOk Watch.empty (ops1 ++ ops2)) :
    (Watch.stats (runOps Watch.empty ops1)).1 =
      (Watch.stats (runOps Watch.empty ops1)).2 :=
  (runOps_preserves Watch.empty invW_empty rfl (allOk_append_left Watch.empty h)).2

/-- C1 (witness): a concrete precondition-respecting sequence — root
insert, child insert, child erase, erase of a dead pair — keeps the two
counts equal. -/
theorem C1_witness :
    AllOk Watch.empty
      ([WOp.ins (-1) "r" 1, WOp.ins 1 "a" 2, WOp.rem 1 "a", WOp.rem 1 "zzz"] ++ []) ∧
    (Watch.stats (runOps Watch.empty
        [WOp.ins (-1) "r" 1, WOp.ins 1 "a" 2, WOp.rem 1 "a", WOp.rem 1 "zzz"])).1 =
      (Watch.stats (runOps Watch.empty
        [WOp.ins (-1) "r" 1, WOp.ins 1 "a" 2, WOp.rem 1 "a", WOp.rem 1 "zzz"])).2 :=
  ⟨by decide, C1_amended _ [] (by decide)⟩

/-- C2 (code bug evaluation): with root `"./tmp"` (handle 1) and child
`a` (handle 2) live, `Watch::erase(1, "a")` returns the removed handle
`2` but only the bare stored name `"a"`, not the resolved display path
`"./tmp/a"` that the walk produces and that the claim (and the
function's own comment, "Returns full name") promises. -/
theorem C2_code_bug_eval :
    (Watch.erase w2deep 1 "a").1 = "a" ∧
    (Watch.erase w2deep 1 "a").2.1 = 2 ∧
    purePath 2 w2deep 2 = some "./tmp/a" ∧
    "a" ≠ "./tmp/a" :=
  ⟨rfl, rfl, rfl, by decide⟩

/-- C3 (counterexample): on an empty registry `Watch::erase` does not
fail: it returns the default handle `0`, and the reverse lookup
`Watch::get(pd, name)` also returns `0` while default-inserting a
reverse entry for the dead pair. -/
theorem C3_counterexample :
    (Watch.erase Watch.empty (-1) "x").2.1 = 0 ∧
    (Watch.getWd Watch.empty (-1) "x").1 = 0 ∧
    (Watch.getWd Watch.empty (-1) "x").2.rwatch = [(⟨-1, "x"⟩, 0)] :=
  ⟨rfl, rfl, rfl⟩

/-- C3 (amended): for a `(parent, name)` pair with no live entry,
`erase` and the reverse lookup do not fail: each returns the default
handle `0`; the reverse lookup grows the reverse map by the
default-inserted entry; and the failing `erase` leaves `stats`
unchanged provided no live entry has handle `0`. -/
theorem C3_amended (w : Watch) (pd : Int) (nm : String)
    (h : alookup (⟨pd, nm⟩ : WdElem) w.rwatch = none) :
    (Watch.erase w pd nm).2.1 = 0 ∧
    (Watch.getWd w pd nm).1 = 0 ∧
    (Watch.getWd w pd nm).2.rwatch.length = w.rwatch.length + 1 ∧
    (alookup (0 : Int) w.watch = none →
      Watch.stats (Watch.erase w pd nm).2.2 = Watch.stats w) := by
  refine ⟨?_, ?_, ?_, ?_⟩
  · simp [Watch.erase, aindex_of_none _ h]
  · simp [Watch.getWd, aindex_of_none _ h]
  · simp [Watch.getWd, aindex_of_none _ h, length_aset_of_none _ h]
  · intro h0
    rw [erase_of_dead h h0]

/-- C3 (witness): the amended statement at the empty registry and the
dead pair `(7, "q")`. -/
theorem C3_witness :
    (Watch.erase Watch.empty 7 "q").2.1 = 0 ∧
    (Watch.getWd Watch.empty 7 "q").1 = 0 ∧
    (Watch.getWd Watch.empty 7 "q").2.rwatch.length = Watch.empty.rwatch.length + 1 ∧
    (alookup (0 : Int) Watch.empty.watch = none →
      Watch.stats (Watch.erase Watch.empty 7 "q").2.2 = Watch.stats Watch.empty) :=
  C3_amended Watch.empty 7 "q" rfl

/-- C4 (counterexample): called on the dead handle `5` of an empty
registry, `Watch::get` does not fail with an unknown-handle error and is
not mutation-free: `operator[]` default-inserts the element
`{pd = 0, name = ""}` under key `5`. -/
theorem C4_counterexample :
    (Watch.get 1 Watch.empty 5).2.watch = [(5, ⟨0, ""⟩)] ∧
    Watch.empty.watch = [] :=
  ⟨rfl, rfl⟩

/-- C4 (amended): whenever the pure reading of the parent-chain walk
resolves a handle to a joined path, `Watch::get` returns exactly that
path and performs no mutation of the registry. -/
theorem C4_amended (n : Nat) (w : Watch) (wd : Int) (p : String)
    (h : purePath n w wd = some p) : Watch.get n w wd = (some p, w) :=
  get_of_purePath n w wd p h

/-- C4 (witness): the amended statement on the live two-level registry,
resolving handle `2` to `"./tmp/a"` without mutation. -/
theorem C4_witness :
    purePath 2 w2deep 2 = some "./tmp/a" ∧
    Watch.get 2 w2deep 2 = (some "./tmp/a", w2deep) :=
  ⟨rfl, C4_amended 2 w2deep 2 "./tmp/a" rfl⟩

/-- C5: for an entry live in both maps as `(parent, name) ↔ handle`
whose parent is not the root marker and whose parent resolves to a path,
the reverse lookup returns exactly that handle without mutation, and the
walk resolves the handle to the parent path joined with the name. -/
theorem C5_roundtrip (w : Watch) (p h0 : Int) (nm pp : String) (fuel : Nat)
    (hr : alookup (⟨p, nm⟩ : WdElem) w.rwatch = some h0)
    (hl : alookup h0 w.watch = some ⟨p, nm⟩)
    (hne : p ≠ -1)
    (hpp : purePath fuel w p = some pp) :
    Watch.getWd w p nm = (h0, w) ∧
    Watch.get (fuel + 1) w h0 = (some (pp ++ "/" ++ nm), w) := by
  constructor
  · simp [Watch.getWd, aindex_of_some _ hr]
  · have hrec := get_of_purePath fuel w p pp hpp
    simp only [Watch.get, aindex_of_some _ hl]
    rw [if_neg (by simpa using hne)]
    have heta : (⟨w.watch, w.rwatch⟩ : Watch) = w := rfl
    simp only [heta, hrec]
    rfl

/-- C5 (witness): in the registry root `"/tmp/root"` (1) → `a` (2) →
`b` (3), the reverse lookup of `(2, "b")` returns `3` and the walk
resolves handle `3` to `"/tmp/root/a/b"`, both without mutation. -/
theorem C5_witness :
    Watch.getWd w3deep 2 "b" = (3, w3deep) ∧
    Watch.get 3 w3deep 3 = (some "/tmp/root/a/b", w3deep) :=
  C5_roundtrip w3deep 2 3 "b" "/tmp/root/a" 2 rfl rfl (by decide) rfl

/-- C6: on a registry holding entries, `cleanup` returns a non-empty
handle sequence and empties both maps (`stats = (0, 0)`), and a second
`cleanup` returns the empty sequence. -/
theorem C6_drain (w : Watch) (h : w.watch ≠ []) :
    (Watch.cleanup w).1 ≠ [] ∧
    Watch.stats (Watch.cleanup w).2 = (0, 0) ∧
    (Watch.cleanup (Watch.cleanup w).2).1 = [] := by
  refine ⟨?_, rfl, rfl⟩
  simpa [Watch.cleanup] using h

/-- C6 (witness): the double-teardown behaviour on the concrete
two-entry registry. -/
theorem C6_witness :
    (Watch.cleanup w2deep).1 ≠ [] ∧
    Watch.stats (Watch.cleanup w2deep).2 = (0, 0) ∧
    (Watch.cleanup (Watch.cleanup w2deep).2).1 = [] :=
  C6_drain w2deep (by decide)

/-- C7: processing `[Create(dir, parent=root, "x"), Create(file,
parent=x, "f.txt"), Delete(dir, parent=root, "x")]` from counters at
zero ends with the directory counter at `0` and the file counter at `1`
— the file deletion is never decremented because its delete event never
arrives. -/
theorem C7_scenario :
    (runEvents 4 initState scenarioEvents).map
      (fun s => (s.totalDirEvents, s.totalFileEvents)) = some ((0 : Int), (1 : Int)) := by
  rfl

/-- C8: a queue-overflow or invalid-handle flagged event (which carries
no name payload) is processed without failing and without changing the
loop state, and the remaining events are processed exactly as if it had
not been delivered; no per-event outcome ends the loop. -/
theorem C8_resilient (fuel : Nat) (s : LoopState) (e : InEvent)
    (rest : List InEvent) (hflag : e.wd = -1 ∨ e.isOverflow = true)
    (hlen : e.len = 0) :
    processEvent fuel s e = some s ∧
    runEvents fuel s (e :: rest) = runEvents fuel s rest := by
  have h1 : processEvent fuel s e = some s := by simp [processEvent, hlen]
  refine ⟨h1, ?_⟩
  simp [runEvents, h1]

/-- C8 (witness): injecting the kernel-shaped overflow event before the
scenario events leaves the startup state unchanged and the scenario is
processed identically. -/
theorem C8_witness :
    processEvent 4 initState overflowEvent = some initState ∧
    runEvents 4 initState (overflowEvent :: scenarioEvents) =
      runEvents 4 initState scenarioEvents :=
  C8_resilient 4 initState overflowEvent scenarioEvents (Or.inl rfl) rfl

/-- C9 (counterexample): in the registry where handle `0` is live but
not a root entry (and no live root entry has handle 0), the walk on the
absent handle `5` nevertheless terminates: the default-inserted entry
steps to handle `0`, whose own chain reaches the root. -/
theorem C9_counterexample :
    alookup (5 : Int) c9w.watch = none ∧
    (alookup (0 : Int) c9w.watch).map WdElem.pd ≠ some (-1) ∧
    (Watch.get 3 c9w 5).1 = some "r/a/" :=
  ⟨rfl, by decide, rfl⟩

/-- C9 (amended): the walk `Watch::get` terminates for exactly those
handles whose parent chain — stepping from an absent handle to the
default-inserted parent `0` — reaches an entry with parent `-1` in
finitely many steps; in particular, for a handle absent from the forward
map the recursion does not terminate when handle `0` is itself not
live. -/
theorem C9_amended (w : Watch) (wd : Int) :
    ((∃ n, ((Watch.get n w wd).1).isSome = true) ↔
      (∃ k, chainStep w (chainIter w k wd) = -1)) ∧
    (alookup wd w.watch = none → alookup (0 : Int) w.watch = none →
      ¬∃ n, ((Watch.get n w wd).1).isSome = true) := by
  constructor
  · constructor
    · rintro ⟨n, hn⟩
      exact chain_of_get_isSome n w wd hn
    · rintro ⟨k, hk⟩
      exact ⟨k + 1, get_isSome_of_chain k w wd hk⟩
  · intro hwd h0 h
    have hstep : chainStep w wd = 0 := by simp [chainStep, elemD, hwd]
    have hzero : chainStep w 0 = 0 := by simp [chainStep, elemD, h0]
    obtain ⟨n, hn⟩ := h
    obtain ⟨k, hk⟩ := chain_of_get_isSome n w wd hn
    cases k with
    | zero =>
      rw [show chainIter w 0 wd = wd from rfl, hstep] at hk
      exact absurd hk (by decide)
    | succ k =>
      have hch : chainIter w (k + 1) wd = 0 := by
        show chainIter w k (chainStep w wd) = 0
        rw [hstep]
        exact chainIter_zero h0 k
      rw [hch, hzero] at hk
      exact absurd hk (by decide)

/-- C9 (witness): on the empty registry the walk on handle `5` never
terminates, at any fuel. -/
theorem C9_witness :
    ¬∃ n, ((Watch.get n Watch.empty 5).1).isSome = true :=
  (C9_amended Watch.empty 5).2 rfl rfl

/-- C10 (counterexample): handle `1` is live with entry `(-1, "a")` and
is re-inserted with the different pair `(-1, "b")` — but since that pair
is already live (under handle `2`), the reverse map does not end up one
entry larger than the forward map: both end at two entries. -/
theorem C10_counterexample :
    alookup (1 : Int)
        (Watch.insert (Watch.insert Watch.empty (-1) "a" 1) (-1) "b" 2).watch =
      some ⟨-1, "a"⟩ ∧
    (⟨-1, "a"⟩ : WdElem) ≠ ⟨-1, "b"⟩ ∧
    (Watch.stats (Watch.insert
        (Watch.insert (Watch.insert Watch.empty (-1) "a" 1) (-1) "b" 2) (-1) "b" 1)).2 ≠
      (Watch.stats (Watch.insert
        (Watch.insert (Watch.insert Watch.empty (-1) "a" 1) (-1) "b" 2) (-1) "b" 1)).1 + 1 :=
  ⟨rfl, by decide, by decide⟩

/-- C10 (amended): re-inserting a live handle with a different pair that
is itself not live overwrites the forward entry, leaves the old reverse
entry untouched, and — starting from equal counts — leaves the reverse
map exactly one entry larger than the forward map. -/
theorem C10_amended (w : Watch) (pd : Int) (nm : String) (wd : Int) (e : WdElem)
    (hl : alookup wd w.watch = some e) (hne : e ≠ ⟨pd, nm⟩)
    (hr : alookup (⟨pd, nm⟩ : WdElem) w.rwatch = none)
    (heq : (Watch.stats w).1 = (Watch.stats w).2) :
    alookup wd (Watch.insert w pd nm wd).watch = some ⟨pd, nm⟩ ∧
    alookup e (Watch.insert w pd nm wd).rwatch = alookup e w.rwatch ∧
    (Watch.stats (Watch.insert w pd nm wd)).2 =
      (Watch.stats (Watch.insert w pd nm wd)).1 + 1 := by
  refine ⟨?_, ?_, ?_⟩
  · simp [Watch.insert, alookup_aset_self]
  · exact alookup_aset_ne _ _ hne
  · simp only [Watch.insert, Watch.stats]
    rw [length_aset_of_some _ hl, length_aset_of_none _ hr]
    simp only [Watch.stats] at heq
    omega

/-- C10 (witness): with only `(-1, "a") ↔ 1` live, re-inserting handle
`1` as `(-1, "b")` leaves one forward entry against two reverse
entries. -/
theorem C10_witness :
    alookup (1 : Int)
        (Watch.insert (Watch.insert Watch.empty (-1) "a" 1) (-1) "b" 1).watch =
      some ⟨-1, "b"⟩ ∧
    alookup (⟨-1, "a"⟩ : WdElem)
        (Watch.insert (Watch.insert Watch.empty (-1) "a" 1) (-1) "b" 1).rwatch =
      alookup (⟨-1, "a"⟩ : WdElem) (Watch.insert Watch.empty (-1) "a" 1).rwatch ∧
    (Watch.stats (Watch.insert (Watch.insert Watch.empty (-1) "a" 1) (-1) "b" 1)).2 =
      (Watch.stats (Watch.insert (Watch.insert Watch.empty (-1) "a" 1) (-1) "b" 1)).1 + 1 :=
  C10_amended (Watch.insert Watch.empty (-1) "a" 1) (-1) "b" 1 ⟨-1, "a"⟩
    (by decide) (by decide) (by decide) rfl
